import Mathlib

/-!
Verification development for the pearls multi-layer persistence engine
(package `internal/storage` with `internal/pearl`): a shallow embedding of
the Store orchestrator, the SQLite-backed index (`DB`), the JSONL log and
the markdown content store, together with theorems about the consistency
protocol.

Modelling conventions:
* `time.Time` values are nanosecond counts (`Nat`); storing a time in the
  SQLite index formats it as RFC3339 (second precision), modelled by
  `truncSec`.
* SQLite rowids: a fresh row receives `max rowid + 1` (1 on an empty
  table), as SQLite assigns them without AUTOINCREMENT.
* `crypto/sha256` and `encoding/json` are external collaborators: the hex
  SHA-256 of a string is an explicit function parameter `hash`, and JSON
  decoding of a log line is an explicit parameter `decode`.  The JSONL file
  is modelled at two levels: at the Store level as the list of records it
  holds (`Option (List Pearl)`, `none` = file absent), and at the component
  level (`JFile`, `ReadAllFS`, `WriteAllFS`) as lines with an explicit
  failure-injection oracle, for the atomic-replace and parse-error claims.
-/

namespace Pearls

/-- internal/pearl/types.go `ConnectionInfo`. -/
structure ConnectionInfo where
  type : String
  host : String
  port : Int
  database : String
  schema : String
  extras : List (String × String)
  deriving DecidableEq

/-- internal/pearl/types.go `Pearl`.  The Go field `Namespace` is `ns` here
(`namespace` is reserved in Lean).  The fields `required` and `priority`
are modelled from the spec: they belong to the later revision of the
record type exercised by `TestRequiredAndPriority` (src/internal/storage/
vector.go), whose `types.go` is not among the repository's files; every
other field is from the `types.go` under src/. -/
structure Pearl where
  id : String
  name : String
  ns : String
  type : String
  tags : List String
  globs : List String
  scopes : List String
  description : String
  contentPath : String
  contentHash : String
  references : List String
  parent : String
  connection : Option ConnectionInfo
  required : Bool
  priority : Int
  createdAt : Nat
  updatedAt : Nat
  createdBy : String
  status : String
  deriving DecidableEq

/-- Errors of the storage layer (the spec's NotFound / AlreadyExists /
IOError taxonomy, as far as the claims need it). -/
inductive StoreErr where
  | alreadyExists
  | notFound
  | ioErr
  deriving DecidableEq

/-- One second in the nanosecond time model. -/
def nsec : Nat := 1000000000

/-- RFC3339 second-precision truncation: what a time suffers on the way
into the `pearls` table (`CreatedAt.Format(time.RFC3339)` at insert,
`time.Parse` at scan). -/
def truncSec (t : Nat) : Nat := t / nsec * nsec

/-- The record as the SQLite index stores and returns it: both timestamps
at second precision, every other field unchanged. -/
def dbTimes (p : Pearl) : Pearl :=
  { p with createdAt := truncSec p.createdAt, updatedAt := truncSec p.updatedAt }

/-- A row of the `pearls` table: the SQLite rowid plus the record. -/
structure Row where
  rowid : Nat
  pearl : Pearl
  deriving DecidableEq

/-- The SQLite database (db.go `DB`): the `pearls` table and the rowids
present in the `pearl_embeddings` vector table (vector.go).  Embedding
payloads are irrelevant to the claims, so only the keying rowids are
kept. -/
structure DBState where
  rows : List Row
  embeddings : List Nat
  deriving DecidableEq

/-- SQLite's rowid for a fresh insert: largest existing rowid plus one. -/
def DBState.nextRowid (d : DBState) : Nat :=
  (d.rows.map Row.rowid).foldr max 0 + 1

/-- db.go `DB.Insert`: fails on a colliding primary key, otherwise adds a
row whose timestamps are RFC3339-truncated. -/
def DB.Insert (d : DBState) (p : Pearl) : DBState × Except StoreErr Unit :=
  if d.rows.any (fun r => r.pearl.id == p.id) then
    (d, .error .alreadyExists)
  else
    ({ d with rows := d.rows ++ [⟨d.nextRowid, dbTimes p⟩] }, .ok ())

/-- db.go `DB.Update`: `UPDATE pearls SET ... WHERE id = ?` — every column
except `id` and `created_at`; zero rows affected is "pearl not found". -/
def DB.Update (d : DBState) (p : Pearl) : DBState × Except StoreErr Unit :=
  if d.rows.any (fun r => r.pearl.id == p.id) then
    ({ d with rows := d.rows.map (fun r =>
        if r.pearl.id == p.id then
          ⟨r.rowid, { p with createdAt := r.pearl.createdAt,
                             updatedAt := truncSec p.updatedAt }⟩
        else r) },
     .ok ())
  else (d, .error .notFound)

/-- db.go `DB.Delete`: `DELETE FROM pearls WHERE id = ?`; zero rows
affected is "pearl not found".  The embeddings table is not touched (the
connection string sets no foreign-key pragma, so nothing cascades). -/
def DB.Delete (d : DBState) (id : String) : DBState × Except StoreErr Unit :=
  if d.rows.any (fun r => r.pearl.id == id) then
    ({ d with rows := d.rows.filter (fun r => !(r.pearl.id == id)) }, .ok ())
  else (d, .error .notFound)

/-- db.go `DB.Get`: `none` when the id is absent (sql.ErrNoRows). -/
def DB.Get (d : DBState) (id : String) : Option Pearl :=
  (d.rows.find? (fun r => r.pearl.id == id)).map Row.pearl

/-- Ordering of db.go `DB.List` with no filters: `ORDER BY namespace,
name` (used by `DB.All`). -/
def nsNameLE (a b : Pearl) : Bool :=
  decide (a.ns < b.ns) || (decide (a.ns = b.ns) && decide (a.name ≤ b.name))

/-- db.go `DB.All` = `DB.List` with no filters: every row, ordered by
namespace then name. -/
def DB.All (d : DBState) : List Pearl :=
  (d.rows.map Row.pearl).mergeSort nsNameLE

/-- vector.go `DB.InsertEmbedding`: keys the embedding by the record's
current rowid, resolved through `(SELECT rowid FROM pearls WHERE id=?)`;
a missing record makes the insert fail. -/
def DB.InsertEmbedding (d : DBState) (id : String) : DBState × Except StoreErr Unit :=
  match d.rows.find? (fun r => r.pearl.id == id) with
  | some r => ({ d with embeddings := d.embeddings ++ [r.rowid] }, .ok ())
  | none => (d, .error .ioErr)

/-- vector.go `DB.DeleteEmbedding`: deletes by the rowid the subquery
resolves; when the record is already gone the subquery is NULL and the
delete matches nothing (no error). -/
def DB.DeleteEmbedding (d : DBState) (id : String) : DBState × Except StoreErr Unit :=
  match d.rows.find? (fun r => r.pearl.id == id) with
  | some r => ({ d with embeddings := d.embeddings.filter (fun x => !(x == r.rowid)) }, .ok ())
  | none => (d, .ok ())

/-- vector.go `DB.ClearEmbeddings`. -/
def DB.ClearEmbeddings (d : DBState) : DBState :=
  { d with embeddings := [] }

/-- The content directory as a map from relative path to file text. -/
abbrev FS := List (String × String)

/-- Look a file up. -/
def fsRead (fs : FS) (path : String) : Option String :=
  (fs.find? (fun e => e.1 == path)).map Prod.snd

/-- Remove a file (`os.Remove`, with IsNotExist ignored — idempotent). -/
def fsDelete (fs : FS) (path : String) : FS :=
  fs.filter (fun e => !(e.1 == path))

/-- Create or overwrite a file (`os.WriteFile` after MkdirAll). -/
def fsWrite (fs : FS) (path content : String) : FS :=
  (path, content) :: fsDelete fs path

/-- glob.go `Content.PathForPearl`: namespace dots become directory
separators, the file is `name + ".md"`; `filepath.Join` is modelled as
"/"-intercalation. -/
def Content.PathForPearl (ns name : String) : String :=
  if ns == "" then name ++ ".md"
  else String.intercalate "/" (ns.splitOn ".") ++ "/" ++ name ++ ".md"

/-- glob.go `Content.Read`: fails when the file is absent. -/
def Content.Read (fs : FS) (path : String) : Except StoreErr String :=
  match fsRead fs path with
  | some c => .ok c
  | none => .error .notFound

/-- glob.go `Content.Write`. -/
def Content.Write (fs : FS) (path content : String) : FS :=
  fsWrite fs path content

/-- glob.go `Content.Delete`: `os.Remove`, absence is not an error. -/
def Content.Delete (fs : FS) (path : String) : FS :=
  fsDelete fs path

/-- glob.go `Content.Exists`. -/
def Content.Exists (fs : FS) (path : String) : Bool :=
  (fsRead fs path).isSome

/-- storage.go `Store`: the orchestrator's state — SQLite index, the
records currently held by the JSONL log file (`none` = absent), and the
content directory. -/
structure StoreState where
  db : DBState
  jsonl : Option (List Pearl)
  content : FS
  deriving DecidableEq

/-- A fresh store over an empty directory. -/
def initStore : StoreState :=
  { db := { rows := [], embeddings := [] }, jsonl := none, content := [] }

/-- jsonl.go `ReadAll` at the record level: a missing file reads as zero
records. -/
def JSONL.ReadAllRecords (j : Option (List Pearl)) : List Pearl :=
  j.getD []

/-- jsonl.go `Append`: opens with O_APPEND|O_CREATE and writes one line. -/
def JSONL.AppendRecord (j : Option (List Pearl)) (p : Pearl) : Option (List Pearl) :=
  some (j.getD [] ++ [p])

/-- The record `Store.Create` actually inserts and appends: content path
derived when unset, content hash set when content is non-empty. -/
def createDoc (hash : String → String) (p : Pearl) (content : String) : Pearl :=
  let p1 := if p.contentPath == "" then
      { p with contentPath := Content.PathForPearl p.ns p.name }
    else p
  if content == "" then p1 else { p1 with contentHash := hash content }

/-- The content path `Store.Create` writes to and rolls back. -/
def createPath (p : Pearl) : String :=
  if p.contentPath == "" then Content.PathForPearl p.ns p.name else p.contentPath

/-- storage.go `Store.Create`: derive path, write content (if any), insert
into the index — deleting the content file on failure — then append to the
JSONL log. -/
def Store.Create (hash : String → String) (s : StoreState) (p : Pearl)
    (content : String) : StoreState × Except StoreErr Pearl :=
  let p2 := createDoc hash p content
  let fs1 := if content == "" then s.content
    else Content.Write s.content (createPath p) content
  match DB.Insert s.db p2 with
  | (d, .error e) =>
      ({ s with db := d, content := Content.Delete fs1 (createPath p) }, .error e)
  | (d, .ok _) =>
      let s1 : StoreState :=
        { db := d, content := fs1, jsonl := JSONL.AppendRecord s.jsonl p2 }
      (s1, .ok p2)

/-- storage.go `Store.Get`: a pure index lookup. -/
def Store.Get (s : StoreState) (id : String) : Option Pearl :=
  DB.Get s.db id

/-- storage.go `Store.GetContent`: an empty content path yields the empty
string with no error; otherwise a direct content-store read. -/
def Store.GetContent (s : StoreState) (p : Pearl) : Except StoreErr String :=
  if p.contentPath == "" then .ok ""
  else Content.Read s.content p.contentPath

/-- The record `Store.Update` sends to the index (content hash recomputed
only when new content is supplied and the record has a content path). -/
def updateDoc (hash : String → String) (p : Pearl) (content : Option String) : Pearl :=
  match content with
  | some c => if p.contentPath == "" then p else { p with contentHash := hash c }
  | none => p

/-- storage.go `Store.Update`: optionally rewrite the content file, update
the index, then rewrite the whole JSONL log from the index. -/
def Store.Update (hash : String → String) (s : StoreState) (p : Pearl)
    (content : Option String) : StoreState × Except StoreErr Unit :=
  let fs1 := match content with
    | some c => if p.contentPath == "" then s.content
        else Content.Write s.content p.contentPath c
    | none => s.content
  match DB.Update s.db (updateDoc hash p content) with
  | (d, .error e) => ({ s with db := d, content := fs1 }, .error e)
  | (d, .ok _) =>
      ({ s with db := d, content := fs1, jsonl := some (DB.All d) }, .ok ())

/-- storage.go `Store.Delete`: look the record up (for its content path),
delete it from the index, best-effort delete the content file, rewrite the
JSONL log from the index. -/
def Store.Delete (s : StoreState) (id : String) : StoreState × Except StoreErr Unit :=
  match DB.Get s.db id with
  | none => (s, .error .notFound)
  | some p =>
    match DB.Delete s.db id with
    | (d, .error e) => ({ s with db := d }, .error e)
    | (d, .ok _) =>
      let fs1 := if p.contentPath == "" then s.content
        else Content.Delete s.content p.contentPath
      ({ s with db := d, content := fs1, jsonl := some (DB.All d) }, .ok ())

/-- storage.go `DB` insert loop of `SyncFromJSONL` (stops at the first
failing insert, leaving the partially rebuilt table). -/
def DB.InsertAll (d : DBState) (ps : List Pearl) : DBState × Except StoreErr Unit :=
  match ps with
  | [] => (d, .ok ())
  | p :: rest =>
    match DB.Insert d p with
    | (d1, .error e) => (d1, .error e)
    | (d1, .ok _) => DB.InsertAll d1 rest

/-- storage.go `Store.SyncFromJSONL`: read the log, `DELETE FROM pearls`
(embeddings untouched), re-insert every record. -/
def Store.SyncFromJSONL (s : StoreState) : StoreState × Except StoreErr Unit :=
  let ps := JSONL.ReadAllRecords s.jsonl
  match DB.InsertAll { s.db with rows := [] } ps with
  | (d, .error e) => ({ s with db := d }, .error e)
  | (d, .ok _) => ({ s with db := d }, .ok ())

/-- storage.go `Store.SyncToJSONL` (= `syncToJSONL`): overwrite the JSONL
log with every record currently in the index. -/
def Store.SyncToJSONL (s : StoreState) : StoreState :=
  { s with jsonl := some (DB.All s.db) }

/-- The catalog states reachable from a fresh store by any sequence of
Create / Update / Delete calls (successful or failed). -/
inductive Reach (hash : String → String) : StoreState → Prop where
  | init : Reach hash initStore
  | create (s : StoreState) (p : Pearl) (c : String) :
      Reach hash s → Reach hash (Store.Create hash s p c).1
  | update (s : StoreState) (p : Pearl) (c : Option String) :
      Reach hash s → Reach hash (Store.Update hash s p c).1
  | del (s : StoreState) (id : String) :
      Reach hash s → Reach hash (Store.Delete s id).1

/-- The index invariant every reachable state satisfies: record ids are
unique (the `pearls` primary key) and every stored timestamp is already at
RFC3339 second precision. -/
def DBInv (d : DBState) : Prop :=
  (d.rows.map (fun r => r.pearl.id)).Nodup ∧ ∀ r ∈ d.rows, dbTimes r.pearl = r.pearl

/-- jsonl.go `ReadAll` at the file level: a line-parse error carrying the
1-based physical line number. -/
inductive ReadErr where
  | parseLine (n : Nat)
  deriving DecidableEq

/-- The scan loop of jsonl.go `ReadAll`: `lineNum` counts every physical
line, empty lines are skipped, the first line `json.Unmarshal` (the
`decode` parameter) rejects aborts with that line's number. -/
def JSONL.readLines (decode : String → Option Pearl) :
    Nat → List String → Except ReadErr (List Pearl)
  | _, [] => .ok []
  | n, l :: ls =>
    if l == "" then JSONL.readLines decode (n + 1) ls
    else match decode l with
      | none => .error (.parseLine n)
      | some p =>
        match JSONL.readLines decode (n + 1) ls with
        | .error e => .error e
        | .ok ps => .ok (p :: ps)

/-- jsonl.go `ReadAll` over the file's physical lines; `none` is a file
that does not exist (os.IsNotExist → nil, nil). -/
def JSONL.ReadAllFS (decode : String → Option Pearl)
    (file : Option (List String)) : Except ReadErr (List Pearl) :=
  match file with
  | none => .ok []
  | some lines => JSONL.readLines decode 1 lines

/-- The failure-injection points of jsonl.go `WriteAll`, one per fallible
call in source order: MkdirAll, os.Create of the temp file, the i-th
`encoder.Encode`, `file.Sync`, `file.Close`, `os.Rename`. -/
inductive WStep where
  | mkdirStep
  | createTmp
  | encodeStep (i : Nat)
  | syncStep
  | closeStep
  | renameStep
  deriving DecidableEq

/-- The two files `WriteAll` can touch, each as the record list its bytes
decode to (`none` = absent): the target log file and the temp file beside
it. -/
structure JFile where
  target : Option (List Pearl)
  tmp : Option (List Pearl)
  deriving DecidableEq

/-- jsonl.go `WriteAll` temp path: the target path plus ".tmp". -/
def tmpPathOf (path : String) : String :=
  path ++ ".tmp"

/-- The directory part of a path: everything up to and including the last
"/" (empty for a bare file name). -/
def dirPart (s : String) : String :=
  String.mk ((s.toList.reverse.dropWhile (fun c => !(c == '/'))).reverse)

/-- jsonl.go `WriteAll` under an explicit failure oracle (`fail st = true`:
the call at step `st` returns an error).  Walks the source's early-return
structure: any failure after the temp file exists removes it and leaves
the target untouched; only a successful rename replaces the target. -/
def JSONL.WriteAllFS (f : JFile) (ps : List Pearl) (fail : WStep → Bool) :
    JFile × Except StoreErr Unit :=
  if fail WStep.mkdirStep then (f, .error .ioErr)
  else if fail WStep.createTmp then (f, .error .ioErr)
  else match (List.range ps.length).find? (fun i => fail (WStep.encodeStep i)) with
    | some _ => ({ f with tmp := none }, .error .ioErr)
    | none =>
      if fail WStep.syncStep then ({ f with tmp := none }, .error .ioErr)
      else if fail WStep.closeStep then ({ f with tmp := none }, .error .ioErr)
      else if fail WStep.renameStep then ({ f with tmp := none }, .error .ioErr)
      else ({ target := some ps, tmp := none }, .ok ())

/-- Modelled from the spec: the `ListOptions` of the later index revision
(the one `TestRequiredAndPriority` in src/internal/storage/vector.go
exercises), whose db.go is not among the repository's files — optional
namespace-prefix, type, status, tag, scope and required-flag filters.  The
empty string (or `none` for required) means "no filter". -/
structure ListOptionsV2 where
  ns : String
  type : String
  status : String
  tag : String
  scope : String
  required : Option Bool
  deriving DecidableEq

/-- Modelled from the spec: whether a record passes every `ListOptionsV2`
filter.  The namespace filter accepts the namespace itself or any
namespace strictly below it (SQL `namespace = ? OR namespace LIKE ?.%`). -/
def matchesOpts (o : ListOptionsV2) (p : Pearl) : Bool :=
  (o.ns == "" || p.ns == o.ns || (o.ns ++ ".").isPrefixOf p.ns) &&
  (o.type == "" || p.type == o.type) &&
  (o.status == "" || p.status == o.status) &&
  (o.tag == "" || p.tags.contains o.tag) &&
  (o.scope == "" || p.scopes.contains o.scope) &&
  (match o.required with
   | none => true
   | some b => p.required == b)

/-- Modelled from the spec: the later revision's list order — `ORDER BY
priority DESC, namespace, name`. -/
def listLE (a b : Pearl) : Bool :=
  decide (b.priority < a.priority) ||
    (decide (a.priority = b.priority) &&
      (decide (a.ns < b.ns) || (decide (a.ns = b.ns) && decide (a.name ≤ b.name))))

/-- Modelled from the spec: the later revision's `DB.List` — the rows that
pass the filters, ordered by priority descending then namespace and name
ascending. -/
def ListV2 (rows : List Pearl) (o : ListOptionsV2) : List Pearl :=
  (rows.filter (matchesOpts o)).mergeSort listLE

/-- A record with every field at its zero value except an id/name and an
active status (concrete material for witnesses). -/
def basePearl : Pearl :=
  { id := "a", name := "a", ns := "", type := "custom", tags := [], globs := [],
    scopes := [], description := "", contentPath := "", contentHash := "",
    references := [], parent := "", connection := none, required := false,
    priority := 0, createdAt := 0, updatedAt := 0, createdBy := "", status := "active" }

/-- `basePearl` as an already-catalogued record whose markdown body lives
at "a.md". -/
def pOld : Pearl :=
  { basePearl with contentPath := "a.md", contentHash := "h0" }

/-- A store holding exactly `pOld`, its log line and its content file. -/
def s0 : StoreState :=
  { db := { rows := [⟨1, pOld⟩], embeddings := [] },
    jsonl := some [pOld],
    content := [("a.md", "old")] }

/-- `s0` with an embedding for `pOld` in the vector sub-index (as `pearls
index --rebuild` leaves it: keyed by the record's rowid 1). -/
def s7 : StoreState :=
  { db := { rows := [⟨1, pOld⟩], embeddings := [1] },
    jsonl := some [pOld],
    content := [("a.md", "old")] }

end Pearls

deriving instance DecidableEq for Except

namespace Pearls

theorem truncSec_idem (t : Nat) : truncSec (truncSec t) = truncSec t := by
  unfold truncSec
  rw [Nat.mul_div_cancel _ (by unfold nsec; norm_num : 0 < nsec)]

theorem dbTimes_idem (p : Pearl) : dbTimes (dbTimes p) = dbTimes p := by
  simp [dbTimes, truncSec_idem]

theorem fsRead_fsWrite_self (fs : FS) (p c : String) :
    fsRead (fsWrite fs p c) p = some c := by
  simp [fsRead, fsWrite]

theorem fsRead_fsDelete_self (fs : FS) (p : String) :
    fsRead (fsDelete fs p) p = none := by
  have h : (fsDelete fs p).find? (fun e => e.1 == p) = none := by
    refine List.find?_eq_none.mpr ?_
    intro x hx
    have h2 := (List.mem_filter.mp hx).2
    simp at h2
    simp [h2]
  simp [fsRead, h]

theorem createDoc_id (hash : String → String) (p : Pearl) (c : String) :
    (createDoc hash p c).id = p.id := by
  simp only [createDoc]
  split <;> split <;> rfl

theorem md_append_ne_empty (x : String) : x ++ ".md" ≠ "" := by
  intro h
  have h2 := congrArg String.length h
  rw [String.length_append] at h2
  have h3 : (".md" : String).length = 3 := rfl
  have h4 : ("" : String).length = 0 := rfl
  rw [h3, h4] at h2
  omega

theorem createPath_ne_empty (p : Pearl) : createPath p ≠ "" := by
  unfold createPath Content.PathForPearl
  split
  · split
    · exact md_append_ne_empty _
    · exact md_append_ne_empty _
  · rename_i h
    simpa using h

theorem createDoc_contentPath (hash : String → String) (p : Pearl) (c : String) :
    (createDoc hash p c).contentPath = createPath p := by
  simp only [createDoc, createPath]
  split <;> split <;> rfl

theorem createDoc_contentHash (hash : String → String) (p : Pearl) (c : String)
    (hc : c ≠ "") : (createDoc hash p c).contentHash = hash c := by
  simp only [createDoc]
  have hcb : (c == "") = false := beq_eq_false_iff_ne.mpr hc
  split
  · rename_i h
    rw [hcb] at h
    cases h
  · split <;> rfl

/-- C10: `GetContent` of a record with an empty content path is the empty
string with no error (storage.go `Store.GetContent`, first branch). -/
theorem C10_getContent_empty_path (s : StoreState) (p : Pearl)
    (h : p.contentPath = "") : Store.GetContent s p = .ok "" := by
  simp [Store.GetContent, h]

theorem C10_getContent_empty_path_witness :
    Store.GetContent initStore basePearl = .ok "" :=
  C10_getContent_empty_path initStore basePearl rfl

/-- C1: at the concrete store `s0` (one record "a" whose content file
"a.md" holds "old"), `Create` with the colliding id "a" does fail with
AlreadyExists and leaves IndexStore and LogStore unchanged — but the
rollback step deletes the existing record's content file, so ContentStore
is NOT unchanged: "a.md" no longer exists after the call. -/
theorem C1_collision_destroys_content :
    (Store.Create (fun _ => "H") s0 basePearl "new").2 = .error .alreadyExists ∧
    fsRead s0.content "a.md" = some "old" ∧
    fsRead (Store.Create (fun _ => "H") s0 basePearl "new").1.content "a.md" = none ∧
    (Store.Create (fun _ => "H") s0 basePearl "new").1.db = s0.db ∧
    (Store.Create (fun _ => "H") s0 basePearl "new").1.jsonl = s0.jsonl := by
  decide

/-- C7: at the concrete store `s7` (record "a" with rowid 1 and an
embedding keyed by rowid 1), `Store.Delete` succeeds, removes the index
row, and leaves the embedding behind: the vector sub-index keeps an entry
whose record row is gone. -/
theorem C7_delete_leaves_orphan_embedding :
    (Store.Delete s7 "a").2 = .ok () ∧
    (Store.Delete s7 "a").1.db.rows = [] ∧
    (Store.Delete s7 "a").1.db.embeddings = [1] := by
  decide

/-- C2 counterexample: with the empty content string, `Create` succeeds
(no content file is written, the hash stays empty), yet `GetContent` of
the record `Get` returns fails with NotFound instead of returning the
empty content, refuting the claim at `c = ""`. -/
theorem C2_counterexample_empty_content :
    (Store.Create (fun _ => "H") initStore basePearl "").2 =
      .ok { basePearl with contentPath := "a.md" } ∧
    Store.Get (Store.Create (fun _ => "H") initStore basePearl "").1 "a" =
      some { basePearl with contentPath := "a.md" } ∧
    Store.GetContent (Store.Create (fun _ => "H") initStore basePearl "").1
      { basePearl with contentPath := "a.md" } = .error .notFound := by
  decide

/-- C4: whenever the IndexStore insert step of `Create` fails (a colliding
id), `Create` returns the error and the content path of that call does not
exist afterwards — the rollback deleted the just-written file. -/
theorem C4_insert_failure_rollback (hash : String → String) (s : StoreState)
    (p : Pearl) (c : String) (hdup : ∃ r ∈ s.db.rows, r.pearl.id = p.id) :
    (Store.Create hash s p c).2 = .error .alreadyExists ∧
    fsRead (Store.Create hash s p c).1.content (createPath p) = none := by
  obtain ⟨r, hr, hid⟩ := hdup
  have hany : s.db.rows.any (fun t => t.pearl.id == (createDoc hash p c).id) = true := by
    refine List.any_eq_true.mpr ⟨r, hr, ?_⟩
    simp [createDoc_id, hid]
  have hins : DB.Insert s.db (createDoc hash p c) = (s.db, .error .alreadyExists) := by
    simp [DB.Insert, hany]
  constructor
  · simp [Store.Create, hins]
  · simp [Store.Create, hins, Content.Delete, fsRead_fsDelete_self]

theorem C4_insert_failure_rollback_witness :
    (Store.Create (fun _ => "H") s0 basePearl "x").2 = .error .alreadyExists ∧
    fsRead (Store.Create (fun _ => "H") s0 basePearl "x").1.content
      (createPath basePearl) = none :=
  C4_insert_failure_rollback (fun _ => "H") s0 basePearl "x"
    ⟨⟨1, pOld⟩, by decide, rfl⟩


theorem dbTimes_id (p : Pearl) : (dbTimes p).id = p.id := rfl

theorem dbTimes_contentPath (p : Pearl) : (dbTimes p).contentPath = p.contentPath := rfl

theorem dbTimes_contentHash (p : Pearl) : (dbTimes p).contentHash = p.contentHash := rfl

/-- C2 (amended to non-empty content): after a successful `Create` with
content `c ≠ ""`, looking the record up returns its stored copy, reading
that copy's content returns exactly `c`, and its content hash is the hash
of `c` (`hash` models the hex SHA-256 of glob.go `HashString`). -/
theorem C2_create_roundtrip (hash : String → String) (s : StoreState) (p : Pearl)
    (c : String) (hc : c ≠ "") (hid : ∀ r ∈ s.db.rows, r.pearl.id ≠ p.id) :
    ∃ q, (Store.Create hash s p c).2 = .ok q ∧
      Store.Get (Store.Create hash s p c).1 p.id = some (dbTimes q) ∧
      Store.GetContent (Store.Create hash s p c).1 (dbTimes q) = .ok c ∧
      (dbTimes q).contentHash = hash c := by
  have hanyF : s.db.rows.any (fun t => t.pearl.id == (createDoc hash p c).id) = false := by
    refine List.any_eq_false.mpr ?_
    intro r hr
    simp [createDoc_id]
    exact hid r hr
  have hins : DB.Insert s.db (createDoc hash p c) =
      ({ s.db with rows :=
          s.db.rows ++ [⟨s.db.nextRowid, dbTimes (createDoc hash p c)⟩] }, .ok ()) := by
    simp [DB.Insert, hanyF]
  have hcb : (c == "") = false := beq_eq_false_iff_ne.mpr hc
  refine ⟨createDoc hash p c, ?_, ?_, ?_, ?_⟩
  · simp [Store.Create, hins]
  · have h1 : s.db.rows.find? (fun r => r.pearl.id == p.id) = none := by
      refine List.find?_eq_none.mpr ?_
      intro r hr
      simp
      exact hid r hr
    have hdb : (Store.Create hash s p c).1.db =
        { s.db with rows :=
            s.db.rows ++ [⟨s.db.nextRowid, dbTimes (createDoc hash p c)⟩] } := by
      simp [Store.Create, hins]
    show DB.Get (Store.Create hash s p c).1.db p.id = _
    rw [hdb]
    unfold DB.Get
    rw [List.find?_append, h1]
    simp [List.find?, dbTimes_id, createDoc_id]
  · have hpath : (dbTimes (createDoc hash p c)).contentPath = createPath p := by
      rw [dbTimes_contentPath, createDoc_contentPath]
    have hne : ((dbTimes (createDoc hash p c)).contentPath == "") = false := by
      rw [hpath]
      exact beq_eq_false_iff_ne.mpr (createPath_ne_empty p)
    simp [Store.Create, hins, hcb, Store.GetContent, hne, hpath, Content.Read,
      Content.Write, fsRead_fsWrite_self]
    exact fun h => absurd h (createPath_ne_empty p)
  · rw [dbTimes_contentHash, createDoc_contentHash hash p c hc]

theorem C2_create_roundtrip_witness :
    ∃ q, (Store.Create (fun _ => "HH") initStore basePearl "body").2 = .ok q ∧
      Store.Get (Store.Create (fun _ => "HH") initStore basePearl "body").1 "a" =
        some (dbTimes q) ∧
      Store.GetContent (Store.Create (fun _ => "HH") initStore basePearl "body").1
        (dbTimes q) = .ok "body" ∧
      (dbTimes q).contentHash = "HH" :=
  C2_create_roundtrip (fun _ => "HH") initStore basePearl "body" (by decide)
    (by intro r hr; simp [initStore] at hr)

theorem DB.get_delete_self (d : DBState) (id : String) :
    DB.Get (DB.Delete d id).1 id = none := by
  unfold DB.Delete
  split
  · simp only [DB.Get]
    have h : (d.rows.filter (fun r => !(r.pearl.id == id))).find?
        (fun r => r.pearl.id == id) = none := by
      refine List.find?_eq_none.mpr ?_
      intro x hx
      have h2 := (List.mem_filter.mp hx).2
      simp at h2
      simp [h2]
    simp [h]
  · rename_i h
    have h2 : d.rows.any (fun r => r.pearl.id == id) = false := by
      cases hh : d.rows.any (fun r => r.pearl.id == id)
      · rfl
      · exact absurd hh h
    simp only [DB.Get]
    have h3 : d.rows.find? (fun r => r.pearl.id == id) = none := by
      refine List.find?_eq_none.mpr ?_
      intro x hx
      exact fun hpx => by
        have := List.any_eq_false.mp h2 x hx
        exact this hpx
    simp [h3]

/-- C8: `Store.Delete` fails with NotFound when the id is absent; when the
record exists it succeeds, the record is gone from the index, its content
file (when it had one) no longer exists, and the JSONL log holds exactly
the index's new record set. -/
theorem C8_delete_semantics (s : StoreState) (id : String) :
    (Store.Get s id = none → (Store.Delete s id).2 = .error .notFound) ∧
    (∀ p, Store.Get s id = some p →
      (Store.Delete s id).2 = .ok () ∧
      Store.Get (Store.Delete s id).1 id = none ∧
      (p.contentPath ≠ "" →
        Content.Exists (Store.Delete s id).1.content p.contentPath = false) ∧
      (Store.Delete s id).1.jsonl = some (DB.All (Store.Delete s id).1.db)) := by
  constructor
  · intro h
    have h1 : DB.Get s.db id = none := h
    simp [Store.Delete, h1]
  · intro p hp
    have h1 : DB.Get s.db id = some p := hp
    obtain ⟨r, hfind, hrp⟩ : ∃ r, s.db.rows.find? (fun t => t.pearl.id == id) = some r ∧
        r.pearl = p := by
      unfold DB.Get at h1
      cases hf : s.db.rows.find? (fun t => t.pearl.id == id) with
      | none => rw [hf] at h1; cases h1
      | some r => rw [hf] at h1; exact ⟨r, rfl, by injection h1⟩
    have hany : s.db.rows.any (fun t => t.pearl.id == id) = true := by
      have hpr : (r.pearl.id == id) = true := by
        have := List.find?_some hfind
        simpa using this
      exact List.any_eq_true.mpr ⟨r, List.mem_of_find?_eq_some hfind, hpr⟩
    have hdel : DB.Delete s.db id =
        ({ s.db with rows := s.db.rows.filter (fun t => !(t.pearl.id == id)) }, .ok ()) := by
      simp [DB.Delete, hany]
    refine ⟨?_, ?_, ?_, ?_⟩
    · simp [Store.Delete, h1, hdel]
    · have := DB.get_delete_self s.db id
      rw [hdel] at this
      simp only [Store.Delete, h1, hdel, Store.Get]
      set_option linter.unnecessarySimpa false in
      simpa [DB.Get] using this
    · intro hne
      have hneb : (p.contentPath == "") = false := beq_eq_false_iff_ne.mpr hne
      simp [Store.Delete, h1, hdel, hneb, Content.Exists, Content.Delete,
        fsRead_fsDelete_self]
    · simp [Store.Delete, h1, hdel]


theorem dirPart_tmpPath (path : String) : dirPart (tmpPathOf path) = dirPart path := by
  unfold dirPart tmpPathOf
  have h1 : (path ++ ".tmp").toList = path.toList ++ (".tmp").toList := by
    simp [String.toList, String.data_append]
  rw [h1, List.reverse_append, List.dropWhile_append]
  have h2 : List.dropWhile (fun c => !(c == '/')) ((".tmp").toList.reverse) = [] := by
    decide
  simp [h2]

/-- C5: `WriteAll` writes through a temp file at `target + ".tmp"` (same
directory as the log); whatever single step fails, the temp file is gone
afterwards and the log file still holds its previous contents; only the
final atomic rename (success) replaces it with exactly the new records —
a partially written log is never left behind. -/
theorem C5_writeAll_atomic_replace (path : String) (f : JFile) (ps : List Pearl)
    (fail : WStep → Bool) (hclean : f.tmp = none) :
    (JSONL.WriteAllFS f ps fail).1.tmp = none ∧
    (JSONL.WriteAllFS f ps fail).1.target =
      (match (JSONL.WriteAllFS f ps fail).2 with
       | .ok _ => some ps
       | .error _ => f.target) ∧
    dirPart (tmpPathOf path) = dirPart path := by
  have hdir := dirPart_tmpPath path
  unfold JSONL.WriteAllFS
  by_cases h1 : fail WStep.mkdirStep
  · simp [h1, hclean, hdir]
  · by_cases h2 : fail WStep.createTmp
    · simp [h1, h2, hclean, hdir]
    · cases h3 : (List.range ps.length).find? (fun i => fail (WStep.encodeStep i)) with
      | some i => simp [h1, h2, h3, hdir]
      | none =>
        by_cases h4 : fail WStep.syncStep
        · simp [h1, h2, h3, h4, hdir]
        · by_cases h5 : fail WStep.closeStep
          · simp [h1, h2, h3, h4, h5, hdir]
          · by_cases h6 : fail WStep.renameStep
            · simp [h1, h2, h3, h4, h5, h6, hdir]
            · simp [h1, h2, h3, h4, h5, h6, hdir]

theorem C5_writeAll_atomic_replace_witness :
    (JSONL.WriteAllFS ⟨some [pOld], none⟩ [basePearl] (fun _ => false)).1.tmp = none ∧
    (JSONL.WriteAllFS ⟨some [pOld], none⟩ [basePearl] (fun _ => false)).1.target =
      (match (JSONL.WriteAllFS ⟨some [pOld], none⟩ [basePearl] (fun _ => false)).2 with
       | .ok _ => some [basePearl]
       | .error _ => some [pOld]) ∧
    dirPart (tmpPathOf "data/pearls.jsonl") = dirPart "data/pearls.jsonl" :=
  C5_writeAll_atomic_replace "data/pearls.jsonl" ⟨some [pOld], none⟩ [basePearl]
    (fun _ => false) rfl

theorem readLines_first_bad (decode : String → Option Pearl) (ls : List String) :
    ∀ k, (∃ l ∈ ls, l ≠ "" ∧ decode l = none) →
    ∃ j, ∃ hj : j < ls.length,
      JSONL.readLines decode k ls = .error (.parseLine (k + j)) ∧
      ls.get ⟨j, hj⟩ ≠ "" ∧ decode (ls.get ⟨j, hj⟩) = none := by
  induction ls with
  | nil =>
    intro k h
    simp at h
  | cons l rest ih =>
    intro k hbad
    by_cases hl : l = ""
    · have hrest : ∃ x ∈ rest, x ≠ "" ∧ decode x = none := by
        obtain ⟨x, hx, hxne, hxd⟩ := hbad
        cases hx with
        | head => exact absurd hl hxne
        | tail _ hmem => exact ⟨x, hmem, hxne, hxd⟩
      obtain ⟨j, hj, heq, hne, hd⟩ := ih (k + 1) hrest
      refine ⟨j + 1, by simpa using Nat.succ_lt_succ hj, ?_, by simpa using hne,
        by simpa using hd⟩
      unfold JSONL.readLines
      have hlb : (l == "") = true := by simp [hl]
      simp only [hlb, if_true]
      rw [show k + (j + 1) = (k + 1) + j from by omega]
      exact heq
    · cases hd : decode l with
      | none =>
        refine ⟨0, by simp, ?_, by simpa using hl, by simpa using hd⟩
        unfold JSONL.readLines
        have hlb : (l == "") = false := beq_eq_false_iff_ne.mpr hl
        simp [hlb, hd]
      | some p =>
        have hrest : ∃ x ∈ rest, x ≠ "" ∧ decode x = none := by
          obtain ⟨x, hx, hxne, hxd⟩ := hbad
          cases hx with
          | head => rw [hd] at hxd; cases hxd
          | tail _ hmem => exact ⟨x, hmem, hxne, hxd⟩
        obtain ⟨j, hj, heq, hne, hdj⟩ := ih (k + 1) hrest
        refine ⟨j + 1, by simpa using Nat.succ_lt_succ hj, ?_, by simpa using hne,
          by simpa using hdj⟩
        unfold JSONL.readLines
        have hlb : (l == "") = false := beq_eq_false_iff_ne.mpr hl
        simp only [hlb, if_false, Bool.false_eq_true, hd]
        rw [show k + (j + 1) = (k + 1) + j from by omega]
        rw [heq]

/-- C9: a missing log file reads as zero records with no error; and when
some non-empty line of an existing file fails to decode, `ReadAll` fails
with a parse error naming that (malformed, non-empty) line's 1-based
physical line number. -/
theorem C9_readAll_missing_and_malformed (decode : String → Option Pearl)
    (lines : List String) (hbad : ∃ l ∈ lines, l ≠ "" ∧ decode l = none) :
    JSONL.ReadAllFS decode none = .ok [] ∧
    ∃ j, ∃ hj : j < lines.length,
      JSONL.ReadAllFS decode (some lines) = .error (.parseLine (j + 1)) ∧
      lines.get ⟨j, hj⟩ ≠ "" ∧ decode (lines.get ⟨j, hj⟩) = none := by
  refine ⟨rfl, ?_⟩
  obtain ⟨j, hj, heq, hne, hd⟩ := readLines_first_bad decode lines 1 hbad
  refine ⟨j, hj, ?_, hne, hd⟩
  show JSONL.readLines decode 1 lines = _
  rw [show j + 1 = 1 + j from by omega]
  exact heq

theorem C9_readAll_missing_and_malformed_witness :
    JSONL.ReadAllFS (fun _ => none) none = .ok [] ∧
    ∃ j, ∃ hj : j < (["", "x"] : List String).length,
      JSONL.ReadAllFS (fun _ => none) (some ["", "x"]) = .error (.parseLine (j + 1)) ∧
      (["", "x"] : List String).get ⟨j, hj⟩ ≠ "" ∧
      (fun _ => (none : Option Pearl)) ((["", "x"] : List String).get ⟨j, hj⟩) = none :=
  C9_readAll_missing_and_malformed (fun _ => none) ["", "x"]
    ⟨"x", by simp, by decide, rfl⟩


theorem listLE_iff (a b : Pearl) : listLE a b = true ↔
    (b.priority < a.priority ∨ (a.priority = b.priority ∧
      (a.ns < b.ns ∨ (a.ns = b.ns ∧ a.name ≤ b.name)))) := by
  simp [listLE]

theorem listLE_trans (a b c : Pearl) (h1 : listLE a b = true)
    (h2 : listLE b c = true) : listLE a c = true := by
  rw [listLE_iff] at h1 h2 ⊢
  rcases h1 with h1 | ⟨he1, hs1⟩
  · rcases h2 with h2 | ⟨he2, hs2⟩
    · exact Or.inl (by omega)
    · exact Or.inl (by omega)
  · rcases h2 with h2 | ⟨he2, hs2⟩
    · exact Or.inl (by omega)
    · refine Or.inr ⟨by omega, ?_⟩
      rcases hs1 with hs1 | ⟨hse1, hn1⟩
      · rcases hs2 with hs2 | ⟨hse2, hn2⟩
        · exact Or.inl (lt_trans hs1 hs2)
        · exact Or.inl (hse2 ▸ hs1)
      · rcases hs2 with hs2 | ⟨hse2, hn2⟩
        · exact Or.inl (hse1 ▸ hs2)
        · exact Or.inr ⟨hse1.trans hse2, le_trans hn1 hn2⟩

theorem listLE_total (a b : Pearl) : listLE a b = true ∨ listLE b a = true := by
  rw [listLE_iff, listLE_iff]
  rcases lt_trichotomy a.priority b.priority with h | h | h
  · right
    exact Or.inl h
  · rcases lt_trichotomy a.ns b.ns with h2 | h2 | h2
    · left
      exact Or.inr ⟨h, Or.inl h2⟩
    · rcases le_total a.name b.name with h3 | h3
      · left
        exact Or.inr ⟨h, Or.inr ⟨h2, h3⟩⟩
      · right
        exact Or.inr ⟨h.symm, Or.inr ⟨h2.symm, h3⟩⟩
    · right
      exact Or.inr ⟨h.symm, Or.inl h2⟩
  · left
    exact Or.inl h

/-- C6 (spec-modelled): `List` returns exactly the records passing the
namespace-prefix / type / status / tag / scope / required filters (as a
permutation of the filtered rows), in an order where each record weakly
precedes the next by priority descending, then namespace and name
ascending. -/
theorem C6_list_filter_order (rows : List Pearl) (o : ListOptionsV2) :
    (ListV2 rows o).Perm (rows.filter (matchesOpts o)) ∧
    List.Pairwise (fun a b => listLE a b = true) (ListV2 rows o) := by
  constructor
  · exact List.mergeSort_perm _ _
  · exact List.sorted_mergeSort
      (fun a b c h1 h2 => listLE_trans a b c h1 h2)
      (fun a b => by rcases listLE_total a b with h | h <;> simp [h]) _


theorem dbTimes_fix (p : Pearl) (hC : truncSec p.createdAt = p.createdAt)
    (hU : truncSec p.updatedAt = p.updatedAt) : dbTimes p = p := by
  unfold dbTimes
  rw [hC, hU]

theorem dbTimes_createdAt_fix (p : Pearl) (h : dbTimes p = p) :
    truncSec p.createdAt = p.createdAt :=
  congrArg Pearl.createdAt h

theorem insert_inv (d : DBState) (p : Pearl) (h : DBInv d) :
    DBInv (DB.Insert d p).1 := by
  unfold DB.Insert
  split
  · exact h
  · rename_i hany
    have hf : d.rows.any (fun r => r.pearl.id == p.id) = false := by
      cases hh : d.rows.any (fun r => r.pearl.id == p.id)
      · rfl
      · exact absurd hh hany
    obtain ⟨hnd, htm⟩ := h
    constructor
    · rw [List.map_append, List.nodup_append]
      refine ⟨hnd, by simp, ?_⟩
      intro x hx hx2
      simp [dbTimes_id] at hx2
      obtain ⟨r, hr, hrid⟩ := List.mem_map.mp hx
      have h3 := List.any_eq_false.mp hf r hr
      simp at h3
      exact h3 (hrid.trans hx2)
    · intro r hr
      rcases List.mem_append.mp hr with hmem | hmem
      · exact htm r hmem
      · simp at hmem
        rw [hmem]
        exact dbTimes_idem p

theorem update_inv (d : DBState) (p : Pearl) (h : DBInv d) :
    DBInv (DB.Update d p).1 := by
  unfold DB.Update
  split
  · obtain ⟨hnd, htm⟩ := h
    constructor
    · have hmap : (d.rows.map (fun r =>
          if r.pearl.id == p.id then
            Row.mk r.rowid { p with createdAt := r.pearl.createdAt,
                                    updatedAt := truncSec p.updatedAt }
          else r)).map (fun r => r.pearl.id) = d.rows.map (fun r => r.pearl.id) := by
        rw [List.map_map]
        refine List.map_congr_left ?_
        intro r hr
        by_cases hc : (r.pearl.id == p.id) = true
        · have : r.pearl.id = p.id := by simpa using hc
          simp [hc, this]
        · have hne : r.pearl.id ≠ p.id := by simpa using hc
          simp [hne]
      rw [hmap]
      exact hnd
    · intro r hr
      obtain ⟨t, ht, htr⟩ := List.mem_map.mp hr
      by_cases hc : (t.pearl.id == p.id) = true
      · rw [hc] at htr
        simp at htr
        rw [← htr]
        refine dbTimes_fix _ ?_ ?_
        · exact dbTimes_createdAt_fix t.pearl (htm t ht)
        · exact truncSec_idem _
      · rw [Bool.not_eq_true] at hc
        rw [hc] at htr
        simp at htr
        rw [← htr]
        exact htm t ht
  · exact h

theorem delete_inv (d : DBState) (id : String) (h : DBInv d) :
    DBInv (DB.Delete d id).1 := by
  unfold DB.Delete
  split
  · obtain ⟨hnd, htm⟩ := h
    constructor
    · exact hnd.sublist (List.Sublist.map _ (List.filter_sublist _))
    · intro r hr
      exact htm r (List.mem_filter.mp hr).1
  · exact h

theorem create_db (hash : String → String) (s : StoreState) (p : Pearl) (c : String) :
    (Store.Create hash s p c).1.db = (DB.Insert s.db (createDoc hash p c)).1 := by
  unfold Store.Create
  rcases hI : DB.Insert s.db (createDoc hash p c) with ⟨d, r⟩
  cases r <;> simp [hI]

theorem update_db (hash : String → String) (s : StoreState) (p : Pearl)
    (c : Option String) :
    (Store.Update hash s p c).1.db = (DB.Update s.db (updateDoc hash p c)).1 := by
  unfold Store.Update
  rcases hU : DB.Update s.db (updateDoc hash p c) with ⟨d, r⟩
  cases r <;> simp [hU]

theorem delete_db (s : StoreState) (id : String) :
    (Store.Delete s id).1.db = (DB.Delete s.db id).1 := by
  unfold Store.Delete
  cases hG : DB.Get s.db id with
  | none =>
    have hf : s.db.rows.any (fun r => r.pearl.id == id) = false := by
      unfold DB.Get at hG
      cases hf2 : s.db.rows.find? (fun r => r.pearl.id == id) with
      | none =>
        refine List.any_eq_false.mpr ?_
        intro x hx
        exact List.find?_eq_none.mp hf2 x hx
      | some r =>
        rw [hf2] at hG
        cases hG
    simp [DB.Delete, hf]
  | some p =>
    rcases hD : DB.Delete s.db id with ⟨d, r⟩
    cases r <;> simp [hG, hD]

theorem reach_inv (hash : String → String) (s : StoreState) (h : Reach hash s) :
    DBInv s.db := by
  induction h with
  | init =>
    exact ⟨by simp [initStore], by simp [initStore]⟩
  | create s p c _ ih =>
    rw [create_db]
    exact insert_inv _ _ ih
  | update s p c _ ih =>
    rw [update_db]
    exact update_inv _ _ ih
  | del s id _ ih =>
    rw [delete_db]
    exact delete_inv _ _ ih


theorem insertAll_ok (ps : List Pearl) : ∀ d : DBState,
    (ps.map Pearl.id).Nodup →
    (∀ p ∈ ps, dbTimes p = p) →
    (∀ p ∈ ps, ∀ r ∈ d.rows, r.pearl.id ≠ p.id) →
    (DB.InsertAll d ps).2 = .ok () ∧
    (DB.InsertAll d ps).1.rows.map Row.pearl = d.rows.map Row.pearl ++ ps := by
  induction ps with
  | nil =>
    intro d _ _ _
    exact ⟨rfl, by simp [DB.InsertAll]⟩
  | cons p rest ih =>
    intro d hnd htm hdis
    have hf : d.rows.any (fun r => r.pearl.id == p.id) = false := by
      refine List.any_eq_false.mpr ?_
      intro r hr
      simp
      exact fun hh => (hdis p (by simp) r hr) hh
    have hins : DB.Insert d p =
        ({ d with rows := d.rows ++ [⟨d.nextRowid, dbTimes p⟩] }, .ok ()) := by
      simp [DB.Insert, hf]
    rw [List.map_cons, List.nodup_cons] at hnd
    have hpid : p.id ∉ rest.map Pearl.id := hnd.1
    have hrest := ih { d with rows := d.rows ++ [⟨d.nextRowid, dbTimes p⟩] }
      hnd.2
      (fun q hq => htm q (List.mem_cons_of_mem p hq))
      ?_
    · constructor
      · simp only [DB.InsertAll, hins]
        exact hrest.1
      · simp only [DB.InsertAll, hins]
        rw [hrest.2]
        simp [htm p (by simp)]
    · intro q hq r hr
      rcases List.mem_append.mp hr with hmem | hmem
      · exact hdis q (List.mem_cons_of_mem p hq) r hmem
      · simp at hmem
        rw [hmem]
        rw [dbTimes_id]
        intro hh
        exact hpid (hh ▸ List.mem_map_of_mem Pearl.id hq)

/-- C3: from any state reachable by Create/Update/Delete, exporting the
index to the JSONL log (`SyncToJSONL`) and rebuilding the index from it
(`SyncFromJSONL`) succeeds and restores the index's record set
field-for-field (a permutation of the previous rows' records). -/
theorem C3_sync_roundtrip (hash : String → String) (s : StoreState)
    (h : Reach hash s) :
    (Store.SyncFromJSONL (Store.SyncToJSONL s)).2 = .ok () ∧
    ((Store.SyncFromJSONL (Store.SyncToJSONL s)).1.db.rows.map Row.pearl).Perm
      (s.db.rows.map Row.pearl) := by
  obtain ⟨hnd, htm⟩ := reach_inv hash s h
  have hperm : (DB.All s.db).Perm (s.db.rows.map Row.pearl) :=
    List.mergeSort_perm _ _
  have hnd2 : ((DB.All s.db).map Pearl.id).Nodup := by
    refine ((hperm.map Pearl.id).symm).nodup ?_
    rw [List.map_map]
    exact hnd
  have htm2 : ∀ p ∈ DB.All s.db, dbTimes p = p := by
    intro p hp
    obtain ⟨r, hr, hrp⟩ := List.mem_map.mp (hperm.mem_iff.mp hp)
    rw [← hrp]
    exact htm r hr
  have hins := insertAll_ok (DB.All s.db) { s.db with rows := [] } hnd2 htm2
    (by intro p _ r hr; simp at hr)
  rcases hIA : DB.InsertAll { s.db with rows := [] } (DB.All s.db) with ⟨d, r⟩
  rw [hIA] at hins
  have h1 : r = .ok () := hins.1
  have h2 : d.rows.map Row.pearl = DB.All s.db := by
    have := hins.2
    simpa using this
  subst h1
  constructor
  · simp [Store.SyncFromJSONL, Store.SyncToJSONL, JSONL.ReadAllRecords, hIA]
  · simp only [Store.SyncFromJSONL, Store.SyncToJSONL, JSONL.ReadAllRecords,
      Option.getD_some, hIA]
    rw [h2]
    exact hperm

theorem C3_sync_roundtrip_witness :
    (Store.SyncFromJSONL (Store.SyncToJSONL
        (Store.Create (fun _ => "HH") initStore basePearl "body").1)).2 = .ok () ∧
    ((Store.SyncFromJSONL (Store.SyncToJSONL
        (Store.Create (fun _ => "HH") initStore basePearl "body").1)).1.db.rows.map
      Row.pearl).Perm
      ((Store.Create (fun _ => "HH") initStore basePearl "body").1.db.rows.map
        Row.pearl) :=
  C3_sync_roundtrip (fun _ => "HH")
    (Store.Create (fun _ => "HH") initStore basePearl "body").1
    (Reach.create initStore basePearl "body" Reach.init)

end Pearls
